import Mathlib

/-!
Shallow embedding of the item-matching engine of the VS-Alexa-Walmart
repository (source file `src/search/matcher.py`): fuzzy token-sort-ratio
scoring over candidate records, purchase-history corroboration, preference
boosting, and ranking.

Embedding conventions:
* a Python candidate dict is a structure of `Option` fields (`none` models an
  absent key); `item.get(k, d)` is `Option.getD`, and the raising subscript
  `item[k]` is `getItem`, which returns `Except.error k` when the key is
  absent (modelling the raised `KeyError`);
* rapidfuzz scores are floating-point numbers computed exactly as
  `100 * (1 - indel_distance / (len_a + len_b))`; they are embedded as exact
  rationals (`ℚ`), with the indel distance expressed through the length of a
  longest common subsequence;
* Python `list.sort(key=..., reverse=True)` is a stable descending sort; it
  is embedded as the stable insertion sort `sortBy` below, which produces the
  same list as any stable sort by the same key;
* Python string `lower` is embedded for the ASCII range (`Char.toLower`),
  and `str.split()` as splitting on whitespace runs, dropping empty pieces.
-/

namespace VSMatcher

/-- Decidable equality for `Except`, so that concrete runs of the matcher can
be checked by `decide`. -/
instance exceptDecEq {ε α : Type} [DecidableEq ε] [DecidableEq α] :
    DecidableEq (Except ε α) := fun x y =>
  match x, y with
  | Except.ok a, Except.ok b =>
    match decEq a b with
    | isTrue h => isTrue (h ▸ rfl)
    | isFalse h => isFalse (fun hh => h (Except.ok.inj hh))
  | Except.error a, Except.error b =>
    match decEq a b with
    | isTrue h => isTrue (h ▸ rfl)
    | isFalse h => isFalse (fun hh => h (Except.error.inj hh))
  | Except.ok _, Except.error _ => isFalse (fun hh => Except.noConfusion hh)
  | Except.error _, Except.ok _ => isFalse (fun hh => Except.noConfusion hh)

/-- One scraped candidate record (a Python dict in the source); every field is
optional because a dict key may be absent. -/
structure Candidate where
  id : Option String := none
  name : Option String := none
  price : Option ℚ := none
  in_stock : Option Bool := none
  frequently_bought : Option Bool := none
  product_url : Option String := none
  image : Option String := none
  my_items_page : Option Nat := none
deriving Repr, DecidableEq

/-- Result of item matching (the `MatchResult` dataclass of the source). -/
structure MatchResult where
  item_id : String
  item_name : String
  price : ℚ
  score : ℚ
  in_stock : Bool
  frequently_bought : Bool
  product_url : String
  image_url : Option String := none
  my_items_page : Option Nat := none
deriving Repr, DecidableEq

/-- Matcher configuration (the `ItemMatcher` constructor arguments). -/
structure ItemMatcher where
  min_score : ℚ := 70
  prefer_frequent : Bool := true
  prefer_in_stock : Bool := true
deriving Repr, DecidableEq

/-- Python truthiness of an optional boolean field: `None` and `False` are
falsy (`item.get("in_stock")` with no default). -/
def truthyBool (o : Option Bool) : Bool :=
  o.getD false

/-- The name of a candidate when it is present and non-empty, else `none`;
this models the guards `if item.get("name")` and `if not name: continue`
(Python string truthiness: the empty string is falsy). -/
def truthyName (c : Candidate) : Option String :=
  match c.name with
  | some n => if n = "" then none else some n
  | none => none

/-- Python `str.lower()` restricted to the ASCII range. -/
def pyLower (s : String) : String :=
  String.mk (s.data.map Char.toLower)

/-- Python `str.split()`: split on runs of whitespace, dropping empty pieces;
`cur` accumulates the current token in reverse. -/
def splitWsAux (cur : List Char) : List Char → List (List Char)
  | [] => if cur = [] then [] else [cur.reverse]
  | c :: cs =>
    if c.isWhitespace then
      if cur = [] then splitWsAux [] cs
      else cur.reverse :: splitWsAux [] cs
    else splitWsAux (c :: cur) cs

/-- Lexicographic comparison of strings by character code, as Python's `<`
on strings (used by `sorted`). -/
def charListLt : List Char → List Char → Bool
  | [], [] => false
  | [], _ :: _ => true
  | _ :: _, [] => false
  | a :: as, b :: bs =>
    if a.toNat < b.toNat then true
    else if b.toNat < a.toNat then false
    else charListLt as bs

/-- Insert `x` into `l`, skipping every element `y` with `after x y`; with
`after x y = key x < key y` this places `x` after all strictly greater
elements and before the first element whose key is not greater. -/
def insertBy (after : α → α → Bool) (x : α) : List α → List α
  | [] => [x]
  | y :: ys => if after x y then y :: insertBy after x ys else x :: y :: ys

/-- Stable insertion sort: with `after x y = key x < key y` this is exactly a
stable sort in descending key order, as Python's
`list.sort(key=..., reverse=True)`. -/
def sortBy (after : α → α → Bool) : List α → List α
  | [] => []
  | x :: xs => insertBy after x (sortBy after xs)

/-- Length of a longest common subsequence, with explicit fuel so that the
recursion is structural; `lcsLen` supplies enough fuel for the recursion to
never be cut off. -/
def lcsAux : Nat → List Char → List Char → Nat
  | 0, _, _ => 0
  | _ + 1, [], _ => 0
  | _ + 1, _ :: _, [] => 0
  | fuel + 1, a :: as, b :: bs =>
    if a = b then lcsAux fuel as bs + 1
    else max (lcsAux fuel (a :: as) bs) (lcsAux fuel as (b :: bs))

/-- Length of a longest common subsequence of two character lists. -/
def lcsLen (xs ys : List Char) : Nat :=
  lcsAux (xs.length + ys.length) xs ys

/-- Exact addition of an integer to a rational, written through `mkRat` on
the common denominator so that it evaluates by kernel reduction (the `ℚ`
instances of `+` and `-` are sealed); `addQ_eq` identifies it with `q + n`. -/
def addQ (q : ℚ) (n : Int) : ℚ :=
  mkRat (q.num + n * q.den) q.den

/-- The rapidfuzz similarity ratio: `100 * (1 - dist / total)` where `dist`
is the indel distance `total - 2 * lcs`; so the ratio is
`200 * lcs / total`, and `100` when both strings are empty (written through
`mkRat`, the exact quotient, so that it evaluates by kernel reduction). -/
def indelRatio (xs ys : List Char) : ℚ :=
  let total : Nat := xs.length + ys.length
  if total = 0 then 100 else mkRat (200 * (lcsLen xs ys : Int)) total

/-- The token-sort preprocessing of rapidfuzz: split on whitespace, sort the
tokens, join with single spaces. -/
def tokenSort (s : List Char) : List Char :=
  List.intercalate [' '] (sortBy (fun a b => charListLt b a) (splitWsAux [] s))

/-- Model of `rapidfuzz.fuzz.token_sort_ratio` (no additional processing; the
source lowercases its arguments itself before calling it). -/
def tokenSortRatio (a b : String) : ℚ :=
  indelRatio (tokenSort a.data) (tokenSort b.data)

/-- Python dict insertion for the comprehensions
`{item["name"]: item for item in ...}`: an existing key keeps its position
and is remapped to the new value; a new key is appended. -/
def dictInsert (k : String) (v : Candidate) :
    List (String × Candidate) → List (String × Candidate)
  | [] => [(k, v)]
  | (k', v') :: rest =>
    if k' = k then (k, v) :: rest else (k', v') :: dictInsert k v rest

/-- The dict comprehension `{item["name"]: item for item in items if
item.get("name")}`, keeping Python's insertion-ordered keys. -/
def buildNameMap (items : List Candidate) : List (String × Candidate) :=
  items.foldl
    (fun m c =>
      match truthyName c with
      | some n => dictInsert n c m
      | none => m)
    []

/-- Python dict lookup (`d[k]` / `k in d`) on the insertion-ordered model. -/
def dictLookup (k : String) : List (String × Candidate) → Option Candidate
  | [] => none
  | (k', v) :: rest => if k' = k then some v else dictLookup k rest

/-- The scan inside `rapidfuzz.process.extractOne`: keep the first choice
attaining the maximal score (a later choice replaces the best only when its
score is strictly greater). -/
def bestChoice (q : String) : Option (String × ℚ) → List String → Option (String × ℚ)
  | best, [] => best
  | best, c :: cs =>
    let s := tokenSortRatio q c
    match best with
    | none => bestChoice q (some (c, s)) cs
    | some b => if b.2 < s then bestChoice q (some (c, s)) cs else bestChoice q (some b) cs

/-- Model of `rapidfuzz.process.extractOne(query, choices, scorer=
fuzz.token_sort_ratio, score_cutoff=cutoff)`: the first best-scoring choice,
provided its score reaches the cutoff, else `None`. -/
def extractOne (q : String) (choices : List String) (cutoff : ℚ) :
    Option (String × ℚ) :=
  match bestChoice q none choices with
  | some (c, s) => if cutoff ≤ s then some (c, s) else none
  | none => none

/-- The loop recovering the original-cased key: the first map key whose
lowercase form equals the matched (lowercased) name. -/
def findOriginalName (keys : List String) (lowered : String) : Option String :=
  keys.find? (fun n => pyLower n = lowered)

/-- Raising dict subscript `item[key]`: `Except.error key` models the
`KeyError` raised when the key is absent. -/
def getItem (o : Option α) (key : String) : Except String α :=
  match o with
  | some v => Except.ok v
  | none => Except.error key

/-- Model of `ItemMatcher._find_in_my_items`: fuzzy-match the query against
the lowercased history names with `min_score` as cutoff, recover the
original casing, and require that exact name (case-sensitively) to be a key
of the catalog map; on success build the `MatchResult` from the catalog
candidate with a `+10` score boost and `frequently_bought = True`. -/
def find_in_my_items (m : ItemMatcher) (query : String)
    (my_items_map search_items_map : List (String × Candidate)) :
    Except String (Option MatchResult) :=
  match extractOne (pyLower query) ((my_items_map.map Prod.fst).map pyLower)
      m.min_score with
  | none => Except.ok none
  | some (matched_name, score) =>
    match findOriginalName (my_items_map.map Prod.fst) matched_name with
    | none => Except.ok none
    | some original_name =>
      match dictLookup original_name search_items_map with
      | none => Except.ok none
      | some item =>
        match getItem item.id "id" with
        | Except.error e => Except.error e
        | Except.ok iid =>
          match getItem item.name "name" with
          | Except.error e => Except.error e
          | Except.ok iname =>
            Except.ok (some
              { item_id := iid
                item_name := iname
                price := item.price.getD 0
                score := addQ score 10
                in_stock := truthyBool item.in_stock
                frequently_bought := true
                product_url := item.product_url.getD ""
                image_url := item.image
                my_items_page := item.my_items_page })

/-- One entry of the `scored_items` list built by `find_best_match`. -/
structure ScoredItem where
  item : Candidate
  name : String
  score : ℚ
  boosted_score : ℚ
deriving Repr, DecidableEq

/-- The boosting block of `find_best_match`: `+5` for a frequently bought
item under `prefer_frequent`; then `+3` for a truthy `in_stock` under
`prefer_in_stock`, `elif` a falsy (absent or `False`) `in_stock` costs
`-10` regardless of `prefer_in_stock`. -/
def adjustScore (m : ItemMatcher) (c : Candidate) (score : ℚ) : ℚ :=
  let b1 := if m.prefer_frequent && truthyBool c.frequently_bought then addQ score 5 else score
  if m.prefer_in_stock && truthyBool c.in_stock then addQ b1 3
  else if !truthyBool c.in_stock then addQ b1 (-10)
  else b1

/-- The scoring loop of `find_best_match`: skip unnamed candidates, score the
lowercased query against the lowercased name, record base and boosted
scores. -/
def scoreItems (m : ItemMatcher) (query : String) (items : List Candidate) :
    List ScoredItem :=
  items.filterMap (fun c =>
    match truthyName c with
    | none => none
    | some n =>
      let s := tokenSortRatio (pyLower query) (pyLower n)
      some { item := c, name := n, score := s, boosted_score := adjustScore m c s })

/-- The call `scored_items.sort(key=lambda x: x["boosted_score"],
reverse=True)`: stable descending sort by boosted score. -/
def sortScored (l : List ScoredItem) : List ScoredItem :=
  sortBy (fun x y => decide (x.boosted_score < y.boosted_score)) l

/-- Construction of the catalog-path `MatchResult`: the raising subscript
`item["id"]` models the `KeyError` on a missing id; the name is the one the
scoring loop guarded to be present and non-empty, and the reported score is
the unadjusted base score. -/
def buildCatalogResult (s : ScoredItem) : Except String MatchResult :=
  match getItem s.item.id "id" with
  | Except.error e => Except.error e
  | Except.ok iid =>
    Except.ok
      { item_id := iid
        item_name := s.name
        price := s.item.price.getD 0
        score := s.score
        in_stock := truthyBool s.item.in_stock
        frequently_bought := truthyBool s.item.frequently_bought
        product_url := s.item.product_url.getD ""
        image_url := s.item.image
        my_items_page := s.item.my_items_page }

/-- Lines 70-76 of the source: the history pool is consulted only when
`my_items` is truthy (neither `None` nor the empty list). -/
def historyStep (m : ItemMatcher) (query : String) (items : List Candidate)
    (my_items : Option (List Candidate)) : Except String (Option MatchResult) :=
  match my_items with
  | some mi =>
    if mi = [] then Except.ok none
    else find_in_my_items m query (buildNameMap mi) (buildNameMap items)
  | none => Except.ok none

/-- Lines 78-137 of the source: score all named candidates, sort by boosted
score, and report the head when its unadjusted base score reaches
`min_score`. -/
def catalogStep (m : ItemMatcher) (query : String) (items : List Candidate) :
    Except String (Option MatchResult) :=
  match (sortScored (scoreItems m query items)).head? with
  | some best =>
    if m.min_score ≤ best.score then
      match buildCatalogResult best with
      | Except.error e => Except.error e
      | Except.ok r => Except.ok (some r)
    else Except.ok none
  | none => Except.ok none

/-- Model of `ItemMatcher.find_best_match`: empty input means no match; a
successful history corroboration short-circuits; otherwise fall through to
the catalog ranking. -/
def find_best_match (m : ItemMatcher) (query : String) (items : List Candidate)
    (my_items : Option (List Candidate)) : Except String (Option MatchResult) :=
  if items = [] then Except.ok none
  else
    match historyStep m query items my_items with
    | Except.error e => Except.error e
    | Except.ok (some r) => Except.ok (some r)
    | Except.ok none => catalogStep m query items

/-- The accumulation loop of `get_top_matches`: every named candidate whose
base score reaches `min_score` yields a `MatchResult` (in input order); the
construction subscripts `item["id"]` and so may raise; no `my_items_page`
is passed, so the field is left at its `None` default. -/
def topResults (m : ItemMatcher) (query : String) :
    List Candidate → Except String (List MatchResult)
  | [] => Except.ok []
  | c :: cs =>
    match truthyName c with
    | none => topResults m query cs
    | some n =>
      let s := tokenSortRatio (pyLower query) (pyLower n)
      if m.min_score ≤ s then
        match getItem c.id "id" with
        | Except.error e => Except.error e
        | Except.ok iid =>
          match topResults m query cs with
          | Except.error e => Except.error e
          | Except.ok rest =>
            Except.ok
              ({ item_id := iid
                 item_name := n
                 price := c.price.getD 0
                 score := s
                 in_stock := truthyBool c.in_stock
                 frequently_bought := truthyBool c.frequently_bought
                 product_url := c.product_url.getD ""
                 image_url := c.image
                 my_items_page := none } :: rest)
      else topResults m query cs

/-- Model of `ItemMatcher.get_top_matches`: qualifying results in input
order, stably sorted by descending base score, truncated to `limit`. -/
def get_top_matches (m : ItemMatcher) (query : String) (items : List Candidate)
    (limit : Nat) : Except String (List MatchResult) :=
  if items = [] then Except.ok []
  else
    match topResults m query items with
    | Except.error e => Except.error e
    | Except.ok results =>
      Except.ok ((sortBy (fun x y => decide (x.score < y.score)) results).take limit)

/-- The qualifying pool of `get_top_matches` written directly from the
spec's words: exactly the named candidates whose unadjusted base score meets
`min_score`, projected to `MatchResult`s in input order, with no boost and
no page (used to compare the source's accumulation loop against the spec's
description). -/
def specQualify (m : ItemMatcher) (query : String) : List Candidate → List MatchResult
  | [] => []
  | c :: cs =>
    match truthyName c with
    | none => specQualify m query cs
    | some n =>
      let s := tokenSortRatio (pyLower query) (pyLower n)
      if m.min_score ≤ s then
        { item_id := c.id.getD ""
          item_name := n
          price := c.price.getD 0
          score := s
          in_stock := truthyBool c.in_stock
          frequently_bought := truthyBool c.frequently_bought
          product_url := c.product_url.getD ""
          image_url := c.image
          my_items_page := none } :: specQualify m query cs
      else specQualify m query cs

/-- Two candidate lists identical except possibly for the
`frequently_bought` and `in_stock` flags of corresponding entries. -/
def SameExceptFlags (l1 l2 : List Candidate) : Prop :=
  List.Forall₂
    (fun a b =>
      a.id = b.id ∧ a.name = b.name ∧ a.price = b.price ∧
      a.product_url = b.product_url ∧ a.image = b.image ∧
      a.my_items_page = b.my_items_page)
    l1 l2

/-! Bridge lemmas for the kernel-computable rational operations. -/

theorem addQ_eq (q : ℚ) (n : Int) : addQ q n = q + n := by
  have hden : (q.den : ℚ) ≠ 0 := by
    exact_mod_cast q.den_nz
  unfold addQ
  rw [Rat.mkRat_eq_divInt, Rat.divInt_eq_div]
  push_cast
  rw [add_div, Rat.num_div_den, mul_div_assoc, div_self hden, mul_one]

theorem lcsAux_le_left (fuel : Nat) : ∀ (xs ys : List Char),
    lcsAux fuel xs ys ≤ xs.length := by
  induction fuel with
  | zero => intro xs ys; simp [lcsAux]
  | succ f ih =>
    intro xs ys
    cases xs with
    | nil => simp [lcsAux]
    | cons a as =>
      cases ys with
      | nil => simp [lcsAux]
      | cons b bs =>
        simp only [lcsAux, List.length_cons]
        split
        · have := ih as bs
          omega
        · have h1 := ih (a :: as) bs
          have h2 := ih as (b :: bs)
          simp only [List.length_cons] at h1
          omega

theorem lcsAux_le_right (fuel : Nat) : ∀ (xs ys : List Char),
    lcsAux fuel xs ys ≤ ys.length := by
  induction fuel with
  | zero => intro xs ys; simp [lcsAux]
  | succ f ih =>
    intro xs ys
    cases xs with
    | nil => simp [lcsAux]
    | cons a as =>
      cases ys with
      | nil => simp [lcsAux]
      | cons b bs =>
        simp only [lcsAux, List.length_cons]
        split
        · have := ih as bs
          omega
        · have h1 := ih (a :: as) bs
          have h2 := ih as (b :: bs)
          simp only [List.length_cons] at h2
          omega

theorem indelRatio_nonneg (xs ys : List Char) : 0 ≤ indelRatio xs ys := by
  show 0 ≤ (if (xs.length + ys.length : Nat) = 0 then (100 : ℚ)
    else mkRat (200 * (lcsLen xs ys : Int)) (xs.length + ys.length))
  split
  · norm_num
  · rw [Rat.mkRat_eq_divInt, Rat.divInt_eq_div]
    positivity

theorem indelRatio_le_100 (xs ys : List Char) : indelRatio xs ys ≤ 100 := by
  show (if (xs.length + ys.length : Nat) = 0 then (100 : ℚ)
    else mkRat (200 * (lcsLen xs ys : Int)) (xs.length + ys.length)) ≤ 100
  split
  · norm_num
  · rename_i htot
    have hpos : (0 : ℚ) < (((xs.length + ys.length : Nat) : Int) : ℚ) := by
      exact_mod_cast Nat.pos_of_ne_zero htot
    rw [Rat.mkRat_eq_divInt, Rat.divInt_eq_div, div_le_iff₀ hpos]
    have h1 := lcsAux_le_left (xs.length + ys.length) xs ys
    have h2 := lcsAux_le_right (xs.length + ys.length) xs ys
    have hlcs : 2 * lcsLen xs ys ≤ xs.length + ys.length := by
      unfold lcsLen
      omega
    have hq : ((2 * lcsLen xs ys : Nat) : ℚ) ≤ ((xs.length + ys.length : Nat) : ℚ) :=
      (Nat.cast_le (α := ℚ)).2 hlcs
    push_cast at hq ⊢
    linarith

theorem tokenSortRatio_nonneg (a b : String) : 0 ≤ tokenSortRatio a b :=
  indelRatio_nonneg _ _

theorem tokenSortRatio_le_100 (a b : String) : tokenSortRatio a b ≤ 100 :=
  indelRatio_le_100 _ _

/-! Lemmas about the stable insertion sort. -/

theorem mem_insertBy (after : α → α → Bool) (x : α) :
    ∀ (l : List α) (y : α), y ∈ insertBy after x l ↔ y = x ∨ y ∈ l := by
  intro l
  induction l with
  | nil => intro y; simp [insertBy]
  | cons a l ih =>
    intro y
    simp only [insertBy]
    split
    · simp only [List.mem_cons, ih y]
      tauto
    · simp only [List.mem_cons]

theorem mem_sortBy (after : α → α → Bool) :
    ∀ (l : List α) (y : α), y ∈ sortBy after l ↔ y ∈ l := by
  intro l
  induction l with
  | nil => intro y; simp [sortBy]
  | cons a l ih =>
    intro y
    simp only [sortBy, mem_insertBy, ih y, List.mem_cons]

theorem length_insertBy (after : α → α → Bool) (x : α) :
    ∀ (l : List α), (insertBy after x l).length = l.length + 1 := by
  intro l
  induction l with
  | nil => simp [insertBy]
  | cons a l ih =>
    simp only [insertBy]
    split
    · simp [ih]
    · simp

theorem length_sortBy (after : α → α → Bool) :
    ∀ (l : List α), (sortBy after l).length = l.length := by
  intro l
  induction l with
  | nil => simp [sortBy]
  | cons a l ih => simp [sortBy, length_insertBy, ih]

theorem sortBy_head_first_max (key : α → ℚ) (l : List α) (x : α)
    (hx : (sortBy (fun a b => decide (key a < key b)) l).head? = some x) :
    ∃ i, l.get? i = some x ∧
      (∀ j y, j < i → l.get? j = some y → key y < key x) ∧
      (∀ y ∈ l, key y ≤ key x) := by
  induction l generalizing x with
  | nil => simp [sortBy] at hx
  | cons a l ih =>
    rw [sortBy] at hx
    cases hs : sortBy (fun a b => decide (key a < key b)) l with
    | nil =>
      have hl : l = [] := by
        have hlen := length_sortBy (fun a b => decide (key a < key b)) l
        rw [hs] at hlen
        cases l with
        | nil => rfl
        | cons b bs => simp at hlen
      subst hl
      have hxa : a = x := by
        simpa [sortBy, insertBy] using hx
      subst hxa
      refine ⟨0, rfl, ?_, ?_⟩
      · intro j y hj hy
        exact absurd hj (Nat.not_lt_zero j)
      · intro y hy
        rcases List.mem_cons.1 hy with rfl | hy'
        · exact le_refl _
        · simp at hy'
    | cons b tail =>
      rw [hs] at hx
      by_cases hab : key a < key b
      · rw [insertBy, if_pos (by simpa using hab)] at hx
        simp only [List.head?_cons, Option.some.injEq] at hx
        subst hx
        obtain ⟨i, hi, hlt, hle⟩ := ih b (by rw [hs]; rfl)
        refine ⟨i + 1, by simpa using hi, ?_, ?_⟩
        · intro j y hj hy
          cases j with
          | zero =>
            simp only [List.get?_cons_zero, Option.some.injEq] at hy
            subst hy
            exact hab
          | succ j' =>
            simp only [List.get?_cons_succ] at hy
            exact hlt j' y (by omega) hy
        · intro y hy
          rcases List.mem_cons.1 hy with rfl | hy'
          · exact le_of_lt hab
          · exact hle y hy'
      · rw [insertBy, if_neg (by simpa using hab)] at hx
        simp only [List.head?_cons, Option.some.injEq] at hx
        subst hx
        obtain ⟨i, hi, hlt, hle⟩ := ih b (by rw [hs]; rfl)
        refine ⟨0, rfl, ?_, ?_⟩
        · intro j y hj hy
          exact absurd hj (Nat.not_lt_zero j)
        · intro y hy
          rcases List.mem_cons.1 hy with rfl | hy'
          · exact le_refl _
          · exact le_trans (hle y hy') (not_lt.1 hab)

theorem chain_insertBy (key : α → ℚ) (x : α) :
    ∀ (l : List α), List.Chain' (fun a b => key b ≤ key a) l →
      List.Chain' (fun a b => key b ≤ key a)
        (insertBy (fun a b => decide (key a < key b)) x l) := by
  intro l
  induction l with
  | nil => intro _; simp [insertBy]
  | cons y ys ih =>
    intro h
    rw [insertBy]
    by_cases hxy : key x < key y
    · rw [if_pos (by simpa using hxy)]
      rw [List.chain'_cons'] at h ⊢
      refine ⟨?_, ih h.2⟩
      intro z hz
      cases hys : ys with
      | nil =>
        subst hys
        have hzx : x = z := by
          simpa [insertBy] using hz
        subst hzx
        exact le_of_lt hxy
      | cons w ws =>
        subst hys
        rw [insertBy] at hz
        by_cases hxw : key x < key w
        · rw [if_pos (by simpa using hxw)] at hz
          have hzw : w = z := by
            simpa using hz
          subst hzw
          exact h.1 w (by simp)
        · rw [if_neg (by simpa using hxw)] at hz
          have hzx : x = z := by
            simpa using hz
          subst hzx
          exact le_of_lt hxy
    · rw [if_neg (by simpa using hxy)]
      rw [List.chain'_cons']
      refine ⟨?_, h⟩
      intro z hz
      have hzy : y = z := by
        simpa using hz
      subst hzy
      exact not_lt.1 hxy

theorem chain_sortBy (key : α → ℚ) :
    ∀ (l : List α), List.Chain' (fun a b => key b ≤ key a)
      (sortBy (fun a b => decide (key a < key b)) l) := by
  intro l
  induction l with
  | nil => simp [sortBy]
  | cons a l ih => exact chain_insertBy key a _ ih

theorem mem_of_head_some {l : List α} {x : α} (h : l.head? = some x) : x ∈ l := by
  cases l with
  | nil => exact absurd h (by simp)
  | cons a t =>
    have hax : a = x := by simpa using h
    exact hax ▸ List.mem_cons_self a t

/-! Lemmas about the dict model and candidate maps. -/

theorem truthyName_some {c : Candidate} {n : String} (h : truthyName c = some n) :
    c.name = some n ∧ n ≠ "" := by
  unfold truthyName at h
  split at h
  · rename_i w hw
    split at h
    · exact absurd h (by simp)
    · rename_i hne
      cases h
      exact ⟨hw, hne⟩
  · exact absurd h (by simp)

theorem mem_dictInsert (k : String) (v : Candidate) :
    ∀ (d : List (String × Candidate)) (p : String × Candidate),
      p ∈ dictInsert k v d → p = (k, v) ∨ p ∈ d := by
  intro d
  induction d with
  | nil =>
    intro p hp
    simp only [dictInsert, List.mem_singleton] at hp
    exact Or.inl hp
  | cons e rest ih =>
    intro p hp
    obtain ⟨k', v'⟩ := e
    simp only [dictInsert] at hp
    split at hp
    · rcases List.mem_cons.1 hp with rfl | hp'
      · exact Or.inl rfl
      · exact Or.inr (List.mem_cons_of_mem _ hp')
    · rcases List.mem_cons.1 hp with rfl | hp'
      · exact Or.inr (List.mem_cons_self _ _)
      · rcases ih p hp' with h2 | h2
        · exact Or.inl h2
        · exact Or.inr (List.mem_cons_of_mem _ h2)

theorem buildNameMap_fold_mem :
    ∀ (its : List Candidate) (acc : List (String × Candidate)) (p : String × Candidate),
      p ∈ its.foldl
        (fun d c =>
          match truthyName c with
          | some n => dictInsert n c d
          | none => d) acc →
      p ∈ acc ∨ (p.2 ∈ its ∧ truthyName p.2 = some p.1) := by
  intro its
  induction its with
  | nil =>
    intro acc p hp
    exact Or.inl (by simpa using hp)
  | cons c cs ih =>
    intro acc p hp
    rw [List.foldl_cons] at hp
    cases htn : truthyName c with
    | none =>
      simp only [htn] at hp
      rcases ih _ p hp with h | h
      · exact Or.inl h
      · exact Or.inr ⟨List.mem_cons_of_mem _ h.1, h.2⟩
    | some n =>
      simp only [htn] at hp
      rcases ih _ p hp with h | h
      · rcases mem_dictInsert n c acc p h with rfl | h2
        · exact Or.inr ⟨List.mem_cons_self _ _, htn⟩
        · exact Or.inl h2
      · exact Or.inr ⟨List.mem_cons_of_mem _ h.1, h.2⟩

theorem buildNameMap_mem {items : List Candidate} {p : String × Candidate}
    (hp : p ∈ buildNameMap items) : p.2 ∈ items ∧ truthyName p.2 = some p.1 := by
  rcases buildNameMap_fold_mem items [] p hp with h | h
  · simp at h
  · exact h

theorem dictLookup_mem (k : String) :
    ∀ (d : List (String × Candidate)) (v : Candidate),
      dictLookup k d = some v → (k, v) ∈ d := by
  intro d
  induction d with
  | nil => intro v h; simp [dictLookup] at h
  | cons e rest ih =>
    intro v h
    obtain ⟨k', v'⟩ := e
    simp only [dictLookup] at h
    split at h
    · rename_i heq
      cases h
      subst heq
      exact List.mem_cons_self _ _
    · exact List.mem_cons_of_mem _ (ih v h)

theorem scoreItems_mem {m : ItemMatcher} {q : String} {items : List Candidate}
    {x : ScoredItem} (hx : x ∈ scoreItems m q items) :
    x.item ∈ items ∧ truthyName x.item = some x.name ∧
      x.score = tokenSortRatio (pyLower q) (pyLower x.name) ∧
      x.boosted_score = adjustScore m x.item x.score := by
  unfold scoreItems at hx
  rcases List.mem_filterMap.1 hx with ⟨c, hc, hfc⟩
  cases htn : truthyName c with
  | none => simp [htn] at hfc
  | some n =>
    simp only [htn, Option.some.injEq] at hfc
    subst hfc
    exact ⟨hc, htn, rfl, rfl⟩

/-! Characterization of the model of `process.extractOne`. -/

theorem bestChoice_some (q : String) :
    ∀ (cs : List String) (best : Option (String × ℚ)) (p : String × ℚ),
      bestChoice q best cs = some p →
      best = some p ∨ (p.1 ∈ cs ∧ p.2 = tokenSortRatio q p.1) := by
  intro cs
  induction cs with
  | nil =>
    intro best p h
    exact Or.inl (by simpa [bestChoice] using h)
  | cons c cs ih =>
    intro best p h
    cases best with
    | none =>
      simp only [bestChoice] at h
      rcases ih _ p h with h2 | h2
      · have : (c, tokenSortRatio q c) = p := by simpa using h2
        subst this
        exact Or.inr ⟨List.mem_cons_self _ _, rfl⟩
      · exact Or.inr ⟨List.mem_cons_of_mem _ h2.1, h2.2⟩
    | some b =>
      simp only [bestChoice] at h
      split at h
      · rcases ih _ p h with h2 | h2
        · have : (c, tokenSortRatio q c) = p := by simpa using h2
          subst this
          exact Or.inr ⟨List.mem_cons_self _ _, rfl⟩
        · exact Or.inr ⟨List.mem_cons_of_mem _ h2.1, h2.2⟩
      · rcases ih _ p h with h2 | h2
        · exact Or.inl (by simpa using h2)
        · exact Or.inr ⟨List.mem_cons_of_mem _ h2.1, h2.2⟩

theorem extractOne_some {q : String} {choices : List String} {cutoff : ℚ}
    {n : String} {s : ℚ}
    (h : extractOne q choices cutoff = some (n, s)) :
    cutoff ≤ s ∧ n ∈ choices ∧ s = tokenSortRatio q n := by
  unfold extractOne at h
  cases hb : bestChoice q none choices with
  | none => rw [hb] at h; exact absurd h (by simp)
  | some p =>
    obtain ⟨c0, s0⟩ := p
    simp only [hb] at h
    by_cases hcut : cutoff ≤ s0
    · rw [if_pos hcut] at h
      simp only [Option.some.injEq, Prod.mk.injEq] at h
      obtain ⟨rfl, rfl⟩ := h
      rcases bestChoice_some q choices none (c0, s0) hb with h2 | h2
      · exact absurd h2 (by simp)
      · exact ⟨hcut, h2.1, h2.2⟩
    · rw [if_neg hcut] at h
      exact absurd h (by simp)

/-! Inversion lemmas for the matcher operations. -/

theorem buildCatalogResult_inv {s : ScoredItem} {r : MatchResult}
    (h : buildCatalogResult s = Except.ok r) :
    s.item.id = some r.item_id ∧ r.item_name = s.name ∧ r.score = s.score ∧
      r.price = s.item.price.getD 0 ∧ r.in_stock = truthyBool s.item.in_stock ∧
      r.frequently_bought = truthyBool s.item.frequently_bought ∧
      r.product_url = s.item.product_url.getD "" ∧ r.image_url = s.item.image ∧
      r.my_items_page = s.item.my_items_page := by
  unfold buildCatalogResult at h
  cases hid : s.item.id with
  | none => simp [hid, getItem] at h
  | some iid =>
    simp only [hid, getItem, Except.ok.injEq] at h
    subst h
    exact ⟨rfl, rfl, rfl, rfl, rfl, rfl, rfl, rfl, rfl⟩

theorem find_in_my_items_inv {m : ItemMatcher} {q : String}
    {mm sm : List (String × Candidate)} {r : MatchResult}
    (h : find_in_my_items m q mm sm = Except.ok (some r)) :
    ∃ n s orig c,
      extractOne (pyLower q) ((mm.map Prod.fst).map pyLower) m.min_score = some (n, s) ∧
      findOriginalName (mm.map Prod.fst) n = some orig ∧
      dictLookup orig sm = some c ∧
      c.id = some r.item_id ∧ c.name = some r.item_name ∧
      r.score = addQ s 10 ∧ r.frequently_bought = true ∧
      r.price = c.price.getD 0 ∧ r.in_stock = truthyBool c.in_stock ∧
      r.product_url = c.product_url.getD "" ∧ r.image_url = c.image ∧
      r.my_items_page = c.my_items_page := by
  unfold find_in_my_items at h
  cases he : extractOne (pyLower q) ((mm.map Prod.fst).map pyLower) m.min_score with
  | none =>
    simp only [he] at h
    exact absurd h (by simp)
  | some p =>
    obtain ⟨n, s⟩ := p
    simp only [he] at h
    cases hon : findOriginalName (mm.map Prod.fst) n with
    | none =>
      simp only [hon] at h
      exact absurd h (by simp)
    | some orig =>
      simp only [hon] at h
      cases hlk : dictLookup orig sm with
      | none =>
        simp only [hlk] at h
        exact absurd h (by simp)
      | some c =>
        simp only [hlk] at h
        cases hid : c.id with
        | none =>
          simp only [hid, getItem] at h
          exact absurd h (by simp)
        | some iid =>
          simp only [hid, getItem] at h
          cases hnm : c.name with
          | none =>
            simp only [hnm, getItem] at h
            exact absurd h (by simp)
          | some iname =>
            simp only [hnm, getItem, Except.ok.injEq, Option.some.injEq] at h
            subst h
            exact ⟨n, s, orig, c, rfl, hon, hlk, hid, hnm, rfl, rfl, rfl, rfl, rfl, rfl, rfl⟩

theorem catalogStep_inv {m : ItemMatcher} {q : String} {items : List Candidate}
    {r : MatchResult} (h : catalogStep m q items = Except.ok (some r)) :
    ∃ best, (sortScored (scoreItems m q items)).head? = some best ∧
      m.min_score ≤ best.score ∧ buildCatalogResult best = Except.ok r := by
  unfold catalogStep at h
  cases hh : (sortScored (scoreItems m q items)).head? with
  | none => simp [hh] at h
  | some best =>
    simp only [hh] at h
    by_cases hsc : m.min_score ≤ best.score
    · rw [if_pos hsc] at h
      cases hb : buildCatalogResult best with
      | error e => simp [hb] at h
      | ok r0 =>
        simp only [hb, Except.ok.injEq, Option.some.injEq] at h
        subst h
        exact ⟨best, rfl, hsc, hb⟩
    · rw [if_neg hsc] at h
      simp at h

theorem find_best_match_inv {m : ItemMatcher} {q : String} {items : List Candidate}
    {my : Option (List Candidate)} {r : MatchResult}
    (h : find_best_match m q items my = Except.ok (some r)) :
    (∃ mi, my = some mi ∧ mi ≠ [] ∧
      find_in_my_items m q (buildNameMap mi) (buildNameMap items) = Except.ok (some r)) ∨
    catalogStep m q items = Except.ok (some r) := by
  unfold find_best_match at h
  by_cases hit : items = []
  · rw [if_pos hit] at h
    simp at h
  · rw [if_neg hit] at h
    cases hh : historyStep m q items my with
    | error e => simp [hh] at h
    | ok o =>
      cases o with
      | some r0 =>
        simp only [hh, Except.ok.injEq, Option.some.injEq] at h
        subst h
        left
        unfold historyStep at hh
        cases my with
        | none => simp at hh
        | some mi =>
          simp only [] at hh
          by_cases hmi : mi = []
          · rw [if_pos hmi] at hh
            simp at hh
          · rw [if_neg hmi] at hh
            exact ⟨mi, rfl, hmi, hh⟩
      | none =>
        simp only [hh] at h
        exact Or.inr h

theorem specQualify_mem {m : ItemMatcher} {q : String} :
    ∀ {items : List Candidate} {r : MatchResult}, r ∈ specQualify m q items →
      ∃ c ∈ items, truthyName c = some r.item_name ∧
        r.score = tokenSortRatio (pyLower q) (pyLower r.item_name) ∧
        m.min_score ≤ r.score ∧
        r.item_id = c.id.getD "" ∧ r.price = c.price.getD 0 ∧
        r.in_stock = truthyBool c.in_stock ∧
        r.frequently_bought = truthyBool c.frequently_bought ∧
        r.product_url = c.product_url.getD "" ∧ r.image_url = c.image ∧
        r.my_items_page = none := by
  intro items
  induction items with
  | nil => intro r hr; simp [specQualify] at hr
  | cons c cs ih =>
    intro r hr
    rw [specQualify] at hr
    cases htn : truthyName c with
    | none =>
      simp only [htn] at hr
      obtain ⟨c', hc', hrest⟩ := ih hr
      exact ⟨c', List.mem_cons_of_mem _ hc', hrest⟩
    | some n =>
      simp only [htn] at hr
      by_cases hsc : m.min_score ≤ tokenSortRatio (pyLower q) (pyLower n)
      · rw [if_pos hsc] at hr
        rcases List.mem_cons.1 hr with rfl | hr'
        · exact ⟨c, List.mem_cons_self _ _, htn, rfl, hsc, rfl, rfl, rfl, rfl, rfl, rfl, rfl⟩
        · obtain ⟨c', hc', hrest⟩ := ih hr'
          exact ⟨c', List.mem_cons_of_mem _ hc', hrest⟩
      · rw [if_neg hsc] at hr
        obtain ⟨c', hc', hrest⟩ := ih hr
        exact ⟨c', List.mem_cons_of_mem _ hc', hrest⟩

theorem topResults_ok_eq {m : ItemMatcher} {q : String} :
    ∀ {items : List Candidate} {l : List MatchResult},
      topResults m q items = Except.ok l → l = specQualify m q items := by
  intro items
  induction items with
  | nil =>
    intro l h
    simp only [topResults, Except.ok.injEq] at h
    rw [← h, specQualify]
  | cons c cs ih =>
    intro l h
    rw [topResults] at h
    cases htn : truthyName c with
    | none =>
      simp only [htn] at h
      rw [specQualify]
      simp only [htn]
      exact ih h
    | some n =>
      simp only [htn] at h
      rw [specQualify]
      simp only [htn]
      by_cases hsc : m.min_score ≤ tokenSortRatio (pyLower q) (pyLower n)
      · rw [if_pos hsc] at h
        rw [if_pos hsc]
        cases hid : c.id with
        | none => simp [hid, getItem] at h
        | some iid =>
          simp only [hid, getItem] at h
          cases ht : topResults m q cs with
          | error e => simp [ht] at h
          | ok rest =>
            simp only [ht, Except.ok.injEq] at h
            rw [← h, ih ht]
            simp [hid]
      · rw [if_neg hsc] at h
        rw [if_neg hsc]
        exact ih h

theorem topResults_error_inv {m : ItemMatcher} {q : String} :
    ∀ {items : List Candidate} {e : String},
      topResults m q items = Except.error e →
      ∃ c ∈ items, (truthyName c).isSome ∧ c.id = none := by
  intro items
  induction items with
  | nil => intro e h; simp [topResults] at h
  | cons c cs ih =>
    intro e h
    rw [topResults] at h
    cases htn : truthyName c with
    | none =>
      simp only [htn] at h
      obtain ⟨c', hc', hrest⟩ := ih h
      exact ⟨c', List.mem_cons_of_mem _ hc', hrest⟩
    | some n =>
      simp only [htn] at h
      by_cases hsc : m.min_score ≤ tokenSortRatio (pyLower q) (pyLower n)
      · rw [if_pos hsc] at h
        cases hid : c.id with
        | none =>
          exact ⟨c, List.mem_cons_self _ _, by simp [htn], hid⟩
        | some iid =>
          simp only [hid, getItem] at h
          cases ht : topResults m q cs with
          | error e' =>
            simp only [ht] at h
            obtain ⟨c', hc', hrest⟩ := ih ht
            exact ⟨c', List.mem_cons_of_mem _ hc', hrest⟩
          | ok rest => simp [ht] at h
      · rw [if_neg hsc] at h
        obtain ⟨c', hc', hrest⟩ := ih h
        exact ⟨c', List.mem_cons_of_mem _ hc', hrest⟩

theorem get_top_matches_ok_eq {m : ItemMatcher} {q : String} {items : List Candidate}
    {limit : Nat} {res : List MatchResult}
    (h : get_top_matches m q items limit = Except.ok res) :
    res = (sortBy (fun x y => decide (x.score < y.score))
      (specQualify m q items)).take limit := by
  unfold get_top_matches at h
  by_cases hit : items = []
  · rw [if_pos hit] at h
    subst hit
    simp only [Except.ok.injEq] at h
    rw [← h, specQualify]
    simp [sortBy]
  · rw [if_neg hit] at h
    cases ht : topResults m q items with
    | error e => simp [ht] at h
    | ok l =>
      simp only [ht, Except.ok.injEq] at h
      rw [← h, topResults_ok_eq ht]

theorem find_ok_candidate {m : ItemMatcher} {q : String} {items : List Candidate}
    {my : Option (List Candidate)} {r : MatchResult}
    (h : find_best_match m q items my = Except.ok (some r)) :
    ∃ c ∈ items, truthyName c = some r.item_name ∧ c.id = some r.item_id ∧
      r.price = c.price.getD 0 ∧ r.in_stock = truthyBool c.in_stock ∧
      r.product_url = c.product_url.getD "" ∧ r.image_url = c.image ∧
      r.my_items_page = c.my_items_page := by
  rcases find_best_match_inv h with ⟨mi, hmy, hne, hh⟩ | hc
  · obtain ⟨n, s, orig, c, _, _, hlk, hid, hnm, _, _, hpr, hst, hurl, himg, hpg⟩ :=
      find_in_my_items_inv hh
    have hmem := buildNameMap_mem (dictLookup_mem orig (buildNameMap items) c hlk)
    have htn : truthyName c = some orig := hmem.2
    have hon_name : c.name = some orig := (truthyName_some htn).1
    have : orig = r.item_name := by
      rw [hon_name] at hnm
      exact Option.some.inj hnm
    subst this
    exact ⟨c, hmem.1, htn, hid, hpr, hst, hurl, himg, hpg⟩
  · obtain ⟨best, hhd, hsc, hb⟩ := catalogStep_inv hc
    have hmem := scoreItems_mem ((mem_sortBy _ _ _).1 (mem_of_head_some hhd))
    obtain ⟨hid, hnm, hscr, hpr, hst, hfb, hurl, himg, hpg⟩ := buildCatalogResult_inv hb
    refine ⟨best.item, hmem.1, ?_, ?_, hpr, hst, hurl, himg, hpg⟩
    · rw [hnm]
      exact hmem.2.1
    · exact hid

theorem buildCatalogResult_error_inv {s : ScoredItem} {e : String}
    (h : buildCatalogResult s = Except.error e) : s.item.id = none := by
  unfold buildCatalogResult at h
  cases hid : s.item.id with
  | none => rfl
  | some iid =>
    simp only [hid, getItem] at h
    exact absurd h (by simp)

theorem find_in_my_items_error_inv {m : ItemMatcher} {q : String}
    {mm sm : List (String × Candidate)} {e : String}
    (h : find_in_my_items m q mm sm = Except.error e) :
    ∃ orig c, dictLookup orig sm = some c ∧ (c.id = none ∨ c.name = none) := by
  unfold find_in_my_items at h
  cases he : extractOne (pyLower q) ((mm.map Prod.fst).map pyLower) m.min_score with
  | none =>
    simp only [he] at h
    exact absurd h (by simp)
  | some p =>
    obtain ⟨n, s⟩ := p
    simp only [he] at h
    cases hon : findOriginalName (mm.map Prod.fst) n with
    | none =>
      simp only [hon] at h
      exact absurd h (by simp)
    | some orig =>
      simp only [hon] at h
      cases hlk : dictLookup orig sm with
      | none =>
        simp only [hlk] at h
        exact absurd h (by simp)
      | some c =>
        simp only [hlk] at h
        cases hid : c.id with
        | none => exact ⟨orig, c, hlk, Or.inl hid⟩
        | some iid =>
          simp only [hid, getItem] at h
          cases hnm : c.name with
          | none => exact ⟨orig, c, hlk, Or.inr hnm⟩
          | some iname =>
            simp only [hnm, getItem] at h
            exact absurd h (by simp)

theorem catalogStep_error_inv {m : ItemMatcher} {q : String} {items : List Candidate}
    {e : String} (h : catalogStep m q items = Except.error e) :
    ∃ best, (sortScored (scoreItems m q items)).head? = some best ∧
      m.min_score ≤ best.score ∧ best.item.id = none := by
  unfold catalogStep at h
  cases hh : (sortScored (scoreItems m q items)).head? with
  | none =>
    simp only [hh] at h
    exact absurd h (by simp)
  | some best =>
    simp only [hh] at h
    by_cases hsc : m.min_score ≤ best.score
    · rw [if_pos hsc] at h
      cases hb : buildCatalogResult best with
      | error e' =>
        exact ⟨best, rfl, hsc, buildCatalogResult_error_inv hb⟩
      | ok r0 =>
        simp only [hb] at h
        exact absurd h (by simp)
    · rw [if_neg hsc] at h
      exact absurd h (by simp)

theorem find_best_match_error_inv {m : ItemMatcher} {q : String}
    {items : List Candidate} {my : Option (List Candidate)} {e : String}
    (h : find_best_match m q items my = Except.error e) :
    (∃ mi, my = some mi ∧ mi ≠ [] ∧
      find_in_my_items m q (buildNameMap mi) (buildNameMap items) = Except.error e) ∨
    catalogStep m q items = Except.error e := by
  unfold find_best_match at h
  by_cases hit : items = []
  · rw [if_pos hit] at h
    exact absurd h (by simp)
  · rw [if_neg hit] at h
    cases hh : historyStep m q items my with
    | error e' =>
      simp only [hh] at h
      have he' : e' = e := by simpa using h
      subst he'
      left
      unfold historyStep at hh
      cases my with
      | none => simp at hh
      | some mi =>
        simp only [] at hh
        by_cases hmi : mi = []
        · rw [if_pos hmi] at hh
          exact absurd hh (by simp)
        · rw [if_neg hmi] at hh
          exact ⟨mi, rfl, hmi, hh⟩
    | ok o =>
      cases o with
      | some r0 =>
        simp only [hh] at h
        exact absurd h (by simp)
      | none =>
        simp only [hh] at h
        exact Or.inr h

/-! Claim theorems. -/

/-- C1: the claim as stated is false. At query `"milk"`, history pool
`[{name: "MILK"}]` and catalog `[{id: "A", name: "milk"}]`, the best history
candidate scores `100 ≥ 70 = min_score` and its name appears
case-insensitively among the catalog names (first three conjuncts), yet
`find_best_match` does not return the history-corroborated result (score
`110`, `frequently_bought = true`): the membership check
`original_name in search_items_map` is case-SENSITIVE (`"MILK" ≠ "milk"`),
so the call falls through to catalog ranking and returns score `100` with
`frequently_bought = false`. -/
theorem history_match_case_insensitive_counterexample :
    tokenSortRatio (pyLower "milk") (pyLower "MILK") = 100 ∧
    ({} : ItemMatcher).min_score ≤ 100 ∧
    pyLower "MILK" ∈
      (((buildNameMap [⟨some "A", some "milk", none, none, none, none, none, none⟩]).map
        Prod.fst).map pyLower) ∧
    find_best_match {} "milk" [⟨some "A", some "milk", none, none, none, none, none, none⟩]
      (some [⟨none, some "MILK", none, none, none, none, none, none⟩]) =
      Except.ok (some ⟨"A", "milk", 0, 100, false, false, "", none, none⟩) :=
  ⟨by decide, by decide, by decide, by decide⟩

/-- C1 (amended): the history short-circuit holds with a case-SENSITIVE (not
case-insensitive) membership check of the recovered original-cased history
name among the catalog names: when the catalog pool is non-empty, the
history pool is non-empty, the best-scoring lowercased history name reaches
the `min_score` cutoff, its original casing is recovered, and that exact
string is a key of the catalog name map whose candidate carries an id, then
`find_best_match` returns a MatchResult built from the catalog candidate
(price, url, image, page preserved) with `score = s + 10` and
`frequently_bought = true`, bypassing the catalog ranking. -/
theorem history_match_short_circuit
    (m : ItemMatcher) (q : String) (items mi : List Candidate)
    (n : String) (s : ℚ) (orig : String) (c : Candidate) (cid cname : String)
    (hit : items ≠ []) (hmi : mi ≠ [])
    (he : extractOne (pyLower q) (((buildNameMap mi).map Prod.fst).map pyLower)
      m.min_score = some (n, s))
    (hon : findOriginalName ((buildNameMap mi).map Prod.fst) n = some orig)
    (hlk : dictLookup orig (buildNameMap items) = some c)
    (hid : c.id = some cid) (hnm : c.name = some cname) :
    find_best_match m q items (some mi) = Except.ok (some
      ⟨cid, cname, c.price.getD 0, s + 10, truthyBool c.in_stock, true,
        c.product_url.getD "", c.image, c.my_items_page⟩) := by
  have hfim : find_in_my_items m q (buildNameMap mi) (buildNameMap items) =
      Except.ok (some ⟨cid, cname, c.price.getD 0, s + 10, truthyBool c.in_stock,
        true, c.product_url.getD "", c.image, c.my_items_page⟩) := by
    unfold find_in_my_items
    simp only [he, hon, hlk, hid, hnm, getItem, addQ_eq]
    norm_num
  unfold find_best_match historyStep
  rw [if_neg hit]
  simp only [if_neg hmi, hfim]

/-- Witness for C1 (amended) at the spec's scenario: query `"milk"`, history
`[{id: "H1", name: "2% Milk"}]`, catalog
`[{id: "H1", name: "2% Milk", price: 3.5}]`; the history score is `800/11`
and the returned result carries `800/11 + 10` and `frequently_bought =
true`. -/
theorem history_match_short_circuit_witness :
    find_best_match {} "milk"
      [⟨some "H1", some "2% Milk", some (mkRat 7 2), none, none, none, none, none⟩]
      (some [⟨some "H1", some "2% Milk", none, none, none, none, none, none⟩]) =
    Except.ok (some ⟨"H1", "2% Milk", mkRat 7 2, mkRat 800 11 + 10, false, true,
      "", none, none⟩) :=
  history_match_short_circuit {} "milk"
    [⟨some "H1", some "2% Milk", some (mkRat 7 2), none, none, none, none, none⟩]
    [⟨some "H1", some "2% Milk", none, none, none, none, none, none⟩]
    "2% milk" (mkRat 800 11) "2% Milk"
    ⟨some "H1", some "2% Milk", some (mkRat 7 2), none, none, none, none, none⟩
    "H1" "2% Milk"
    (by decide) (by decide) (by decide) (by decide) (by decide) (by decide) (by decide)

/-- C2: every MatchResult returned by `find_best_match` (with or without a
history pool) carries a score at least `min_score`; a `none` return is the
only other non-raising outcome. -/
theorem find_best_match_score_ge_min (m : ItemMatcher) (q : String)
    (items : List Candidate) (my : Option (List Candidate)) (r : MatchResult)
    (h : find_best_match m q items my = Except.ok (some r)) :
    m.min_score ≤ r.score := by
  rcases find_best_match_inv h with ⟨mi, _, _, hh⟩ | hc
  · obtain ⟨n, s, orig, c, he, _, _, _, _, hscore, _⟩ := find_in_my_items_inv hh
    obtain ⟨hcut, _, _⟩ := extractOne_some he
    rw [hscore, addQ_eq]
    push_cast
    linarith
  · obtain ⟨best, _, hsc, hb⟩ := catalogStep_inv hc
    obtain ⟨_, _, hscr, _⟩ := buildCatalogResult_inv hb
    rw [hscr]
    exact hsc

/-- Witness for C2: the returned score `100` meets the default threshold
`70`. -/
theorem find_best_match_score_ge_min_witness :
    ({} : ItemMatcher).min_score ≤
      (⟨"A", "milk", 0, 100, false, false, "", none, none⟩ : MatchResult).score :=
  find_best_match_score_ge_min {} "milk"
    [⟨some "A", some "milk", none, none, none, none, none, none⟩] none
    ⟨"A", "milk", 0, 100, false, false, "", none, none⟩ (by decide)

/-- C3: in the catalog-ranking path (no history pool) the reported score is
the unadjusted token-sort-ratio of the lowercased query against the
lowercased winning name, never the boosted score; consequently two calls on
candidate lists identical except for the `frequently_bought` / `in_stock`
flags report the same score whenever they select the same winning name. -/
theorem catalog_score_unboosted :
    (∀ (m : ItemMatcher) (q : String) (items : List Candidate) (r : MatchResult),
      find_best_match m q items none = Except.ok (some r) →
      r.score = tokenSortRatio (pyLower q) (pyLower r.item_name)) ∧
    (∀ (m : ItemMatcher) (q : String) (l1 l2 : List Candidate) (r1 r2 : MatchResult),
      SameExceptFlags l1 l2 →
      find_best_match m q l1 none = Except.ok (some r1) →
      find_best_match m q l2 none = Except.ok (some r2) →
      r1.item_name = r2.item_name → r1.score = r2.score) := by
  have base : ∀ (m : ItemMatcher) (q : String) (items : List Candidate) (r : MatchResult),
      find_best_match m q items none = Except.ok (some r) →
      r.score = tokenSortRatio (pyLower q) (pyLower r.item_name) := by
    intro m q items r h
    rcases find_best_match_inv h with ⟨mi, hmy, _, _⟩ | hc
    · exact absurd hmy (by simp)
    · obtain ⟨best, hhd, _, hb⟩ := catalogStep_inv hc
      obtain ⟨_, hnm, hscr, _⟩ := buildCatalogResult_inv hb
      have hmem := scoreItems_mem ((mem_sortBy _ _ _).1 (mem_of_head_some hhd))
      rw [hscr, hnm]
      exact hmem.2.2.1
  refine ⟨base, ?_⟩
  intro m q l1 l2 r1 r2 _ h1 h2 hname
  rw [base m q l1 r1 h1, base m q l2 r2 h2, hname]

/-- Witness for C3: the base score of the winning candidate is reported
untouched by boosting on a concrete call. -/
theorem catalog_score_unboosted_witness :
    (⟨"A", "milk", 0, 100, false, false, "", none, none⟩ : MatchResult).score =
      tokenSortRatio (pyLower "milk")
        (pyLower (⟨"A", "milk", 0, 100, false, false, "", none, none⟩ : MatchResult).item_name) :=
  catalog_score_unboosted.1 {} "milk"
    [⟨some "A", some "milk", none, none, none, none, none, none⟩]
    ⟨"A", "milk", 0, 100, false, false, "", none, none⟩ (by decide)

/-- C4: the catalog ranking is stable: the winning candidate is the entry of
the scored list (named candidates in input order) whose adjusted
(boosted) score is maximal and which occurs EARLIEST among entries achieving
that maximum — in particular, when two or more candidates (even with
identical names) tie for the highest adjusted score, the first in input
order wins. -/
theorem find_best_match_first_max_selected (m : ItemMatcher) (q : String)
    (items : List Candidate) (r : MatchResult)
    (h : find_best_match m q items none = Except.ok (some r)) :
    ∃ i best, (scoreItems m q items).get? i = some best ∧
      buildCatalogResult best = Except.ok r ∧ m.min_score ≤ best.score ∧
      (∀ j y, j < i → (scoreItems m q items).get? j = some y →
        y.boosted_score < best.boosted_score) ∧
      (∀ y ∈ scoreItems m q items, y.boosted_score ≤ best.boosted_score) := by
  rcases find_best_match_inv h with ⟨mi, hmy, _, _⟩ | hc
  · exact absurd hmy (by simp)
  · obtain ⟨best, hhd, hsc, hb⟩ := catalogStep_inv hc
    obtain ⟨i, hi, hlt, hle⟩ :=
      sortBy_head_first_max (fun x : ScoredItem => x.boosted_score) _ best hhd
    exact ⟨i, best, hi, hb, hsc, hlt, hle⟩

/-- Witness for C4 at the spec's scenario: two candidates both named
`"Bread"`, ids `"X"` then `"Y"`, tie at the maximal adjusted score and the
earlier one (`"X"`) is selected. -/
theorem find_best_match_first_max_selected_witness :
    ∃ i best,
      (scoreItems {} "bread"
        [⟨some "X", some "Bread", none, none, none, none, none, none⟩,
         ⟨some "Y", some "Bread", none, none, none, none, none, none⟩]).get? i = some best ∧
      buildCatalogResult best =
        Except.ok ⟨"X", "Bread", 0, 100, false, false, "", none, none⟩ ∧
      ({} : ItemMatcher).min_score ≤ best.score ∧
      (∀ j y, j < i →
        (scoreItems {} "bread"
          [⟨some "X", some "Bread", none, none, none, none, none, none⟩,
           ⟨some "Y", some "Bread", none, none, none, none, none, none⟩]).get? j = some y →
        y.boosted_score < best.boosted_score) ∧
      (∀ y ∈ scoreItems {} "bread"
          [⟨some "X", some "Bread", none, none, none, none, none, none⟩,
           ⟨some "Y", some "Bread", none, none, none, none, none, none⟩],
        y.boosted_score ≤ best.boosted_score) :=
  find_best_match_first_max_selected {} "bread"
    [⟨some "X", some "Bread", none, none, none, none, none, none⟩,
     ⟨some "Y", some "Bread", none, none, none, none, none, none⟩]
    ⟨"X", "Bread", 0, 100, false, false, "", none, none⟩ (by decide)

/-- C5: `get_top_matches` returns at most `limit` results; each carries its
unadjusted base score (at least `min_score`) and no boost or history
short-circuit is involved; the list is sorted by descending base score; and
it equals exactly the stable descending sort of the qualifying pool (named
candidates with base score ≥ `min_score`, in input order), truncated to
`limit`. -/
theorem get_top_matches_spec (m : ItemMatcher) (q : String) (items : List Candidate)
    (limit : Nat) (res : List MatchResult)
    (h : get_top_matches m q items limit = Except.ok res) :
    res.length ≤ limit ∧
    (∀ r ∈ res, m.min_score ≤ r.score ∧
      r.score = tokenSortRatio (pyLower q) (pyLower r.item_name)) ∧
    List.Chain' (fun a b => b.score ≤ a.score) res ∧
    res = (sortBy (fun x y => decide (x.score < y.score))
      (specQualify m q items)).take limit := by
  have heq := get_top_matches_ok_eq h
  refine ⟨?_, ?_, ?_, heq⟩
  · rw [heq]
    exact List.length_take_le _ _
  · intro r hr
    rw [heq] at hr
    have hr' := (mem_sortBy _ _ _).1 (List.mem_of_mem_take hr)
    obtain ⟨c, _, _, hscr, hmin, _⟩ := specQualify_mem hr'
    exact ⟨hmin, hscr⟩
  · rw [heq]
    exact (chain_sortBy (fun x : MatchResult => x.score) _).take _

/-- Witness for C5: candidates scoring `[100, 75, 0]` against `"milk"` with
`min_score = 50` and `limit = 2` yield exactly the two results `[100, 75]`
in descending order. -/
theorem get_top_matches_spec_witness :
    ([(⟨"A", "milk", 0, 100, false, false, "", none, none⟩ : MatchResult),
      ⟨"B", "silk", 0, 75, false, false, "", none, none⟩] : List MatchResult).length ≤ 2 ∧
    (∀ r ∈ ([(⟨"A", "milk", 0, 100, false, false, "", none, none⟩ : MatchResult),
      ⟨"B", "silk", 0, 75, false, false, "", none, none⟩] : List MatchResult),
      ({ min_score := 50 } : ItemMatcher).min_score ≤ r.score ∧
      r.score = tokenSortRatio (pyLower "milk") (pyLower r.item_name)) ∧
    List.Chain' (fun a b => b.score ≤ a.score)
      ([(⟨"A", "milk", 0, 100, false, false, "", none, none⟩ : MatchResult),
        ⟨"B", "silk", 0, 75, false, false, "", none, none⟩] : List MatchResult) ∧
    ([(⟨"A", "milk", 0, 100, false, false, "", none, none⟩ : MatchResult),
      ⟨"B", "silk", 0, 75, false, false, "", none, none⟩] : List MatchResult) =
      (sortBy (fun x y => decide (x.score < y.score))
        (specQualify { min_score := 50 } "milk"
          [⟨some "A", some "milk", none, none, none, none, none, none⟩,
           ⟨some "B", some "silk", none, none, none, none, none, none⟩,
           ⟨some "C", some "xyzqw", none, none, none, none, none, none⟩])).take 2 :=
  get_top_matches_spec { min_score := 50 } "milk"
    [⟨some "A", some "milk", none, none, none, none, none, none⟩,
     ⟨some "B", some "silk", none, none, none, none, none, none⟩,
     ⟨some "C", some "xyzqw", none, none, none, none, none, none⟩] 2
    [⟨"A", "milk", 0, 100, false, false, "", none, none⟩,
     ⟨"B", "silk", 0, 75, false, false, "", none, none⟩] (by decide)

/-- C6: the claim as stated is false on two counts. First, the history path
adds `10` to a history score that can already be `100`: at query `"milk"`
with history and catalog both holding `"Milk"`, the returned score is `110`,
outside `0..100`. Second, scores need not be integers: token-sort-ratio of
`"milk"` against `"bread milk"` is `400/7` (denominator `7 ≠ 1`), and a
MatchResult carrying exactly that non-integral score is returned. -/
theorem score_range_counterexample :
    (find_best_match {} "milk" [⟨some "A", some "Milk", none, none, none, none, none, none⟩]
        (some [⟨none, some "Milk", none, none, none, none, none, none⟩]) =
      Except.ok (some ⟨"A", "Milk", 0, 110, false, true, "", none, none⟩) ∧
      ¬((110 : ℚ) ≤ 100)) ∧
    (find_best_match ⟨50, true, true⟩ "milk"
        [⟨some "B", some "bread milk", none, none, none, none, none, none⟩] none =
      Except.ok (some ⟨"B", "bread milk", 0, mkRat 400 7, false, false, "", none, none⟩) ∧
      (mkRat 400 7).den = 7) :=
  ⟨⟨by decide, by norm_num⟩, by decide, by decide⟩

/-- C6 (amended): every score reported by `find_best_match` is a rational
(not necessarily an integer) in the range `0` to `110` inclusive — the
history path alone can exceed `100`, by exactly its fixed `+10` boost — and
every score reported by `get_top_matches` lies in `0` to `100` inclusive. -/
theorem score_range_bounds (m : ItemMatcher) (q : String) (items : List Candidate)
    (my : Option (List Candidate)) (limit : Nat) (r : MatchResult)
    (res : List MatchResult) :
    (find_best_match m q items my = Except.ok (some r) →
      0 ≤ r.score ∧ r.score ≤ 110) ∧
    (get_top_matches m q items limit = Except.ok res →
      ∀ x ∈ res, 0 ≤ x.score ∧ x.score ≤ 100) := by
  constructor
  · intro h
    rcases find_best_match_inv h with ⟨mi, _, _, hh⟩ | hc
    · obtain ⟨n, s, orig, c, he, _, _, _, _, hscore, _⟩ := find_in_my_items_inv hh
      obtain ⟨_, _, hs⟩ := extractOne_some he
      have h0 : 0 ≤ s := by rw [hs]; exact tokenSortRatio_nonneg _ _
      have h100 : s ≤ 100 := by rw [hs]; exact tokenSortRatio_le_100 _ _
      rw [hscore, addQ_eq]
      push_cast
      constructor <;> linarith
    · obtain ⟨best, hhd, _, hb⟩ := catalogStep_inv hc
      obtain ⟨_, _, hscr, _⟩ := buildCatalogResult_inv hb
      have hmem := scoreItems_mem ((mem_sortBy _ _ _).1 (mem_of_head_some hhd))
      rw [hscr, hmem.2.2.1]
      refine ⟨tokenSortRatio_nonneg _ _, le_trans (tokenSortRatio_le_100 _ _) ?_⟩
      norm_num
  · intro h x hx
    rw [get_top_matches_ok_eq h] at hx
    have hx' := (mem_sortBy _ _ _).1 (List.mem_of_mem_take hx)
    obtain ⟨c, _, _, hscr, _⟩ := specQualify_mem hx'
    rw [hscr]
    exact ⟨tokenSortRatio_nonneg _ _, tokenSortRatio_le_100 _ _⟩

/-- Witness for C6 (amended): the non-integral score `400/7` lies in
`[0, 110]`, and the top-match score `100` lies in `[0, 100]`. -/
theorem score_range_bounds_witness :
    (0 ≤ (⟨"B", "bread milk", 0, mkRat 400 7, false, false, "", none, none⟩ :
        MatchResult).score ∧
      (⟨"B", "bread milk", 0, mkRat 400 7, false, false, "", none, none⟩ :
        MatchResult).score ≤ 110) ∧
    (0 ≤ (⟨"A", "milk", 0, 100, false, false, "", none, none⟩ : MatchResult).score ∧
      (⟨"A", "milk", 0, 100, false, false, "", none, none⟩ : MatchResult).score ≤ 100) :=
  ⟨(score_range_bounds ⟨50, true, true⟩ "milk"
      [⟨some "B", some "bread milk", none, none, none, none, none, none⟩] none 5
      ⟨"B", "bread milk", 0, mkRat 400 7, false, false, "", none, none⟩ []).1 (by decide),
   (score_range_bounds {} "milk"
      [⟨some "A", some "milk", none, none, none, none, none, none⟩] none 5
      ⟨"A", "milk", 0, 100, false, false, "", none, none⟩
      [⟨"A", "milk", 0, 100, false, false, "", none, none⟩]).2 (by decide)
      ⟨"A", "milk", 0, 100, false, false, "", none, none⟩ (by decide)⟩

/-- C7: the claim as stated is false. A candidate with no `in_stock` key is
treated as OUT of stock, not in stock: a single absent-stock candidate wins
with `in_stock = false` in the MatchResult (not `true`); its adjusted score
is `100 - 10 = 90` (the `-10` penalty, not the claimed `+3` bonus); and
against a later same-name candidate with `in_stock: true` (adjusted `103`)
the absent-stock earlier candidate LOSES, though the claim's `+3`-for-both
reading would make the earlier one win the tie. -/
theorem absent_in_stock_counterexample :
    find_best_match {} "milk" [⟨some "A", some "milk", none, none, none, none, none, none⟩]
      none = Except.ok (some ⟨"A", "milk", 0, 100, false, false, "", none, none⟩) ∧
    adjustScore {} ⟨some "A", some "milk", none, none, none, none, none, none⟩ 100 = 90 ∧
    find_best_match {} "milk"
      [⟨some "A", some "milk", none, none, none, none, none, none⟩,
       ⟨some "B", some "milk", none, some true, none, none, none, none⟩] none =
      Except.ok (some ⟨"B", "milk", 0, 100, true, false, "", none, none⟩) :=
  ⟨by decide, by decide, by decide⟩

/-- C7 (amended): a candidate whose `in_stock` field is absent is treated as
out of stock: its adjusted score incurs the `-10` penalty (never the `+3`
bonus), and any MatchResult built from it by `find_best_match` reports
`in_stock = false`. -/
theorem absent_in_stock_penalized :
    (∀ (m : ItemMatcher) (c : Candidate) (score : ℚ), c.in_stock = none →
      adjustScore m c score =
        (if m.prefer_frequent && truthyBool c.frequently_bought then score + 5
          else score) - 10) ∧
    (∀ (m : ItemMatcher) (q : String) (items : List Candidate)
      (my : Option (List Candidate)) (r : MatchResult),
      (∀ c ∈ items, c.in_stock = none) →
      find_best_match m q items my = Except.ok (some r) → r.in_stock = false) := by
  constructor
  · intro m c score hin
    unfold adjustScore
    rw [hin]
    simp only [truthyBool, Option.getD_none, Bool.and_false, Bool.not_false,
      if_false, if_true, addQ_eq]
    push_cast
    ring
  · intro m q items my r hall h
    obtain ⟨c, hc, _, _, _, hst, _, _, _⟩ := find_ok_candidate h
    rw [hst, hall c hc]
    rfl

/-- Witness for C7 (amended): the penalty and reported flag at concrete
inputs. -/
theorem absent_in_stock_penalized_witness :
    (adjustScore {} ⟨some "A", some "milk", none, none, none, none, none, none⟩ 100 =
      (if ({} : ItemMatcher).prefer_frequent &&
          truthyBool (⟨some "A", some "milk", none, none, none, none, none, none⟩ :
            Candidate).frequently_bought then (100 : ℚ) + 5 else 100) - 10) ∧
    (⟨"A", "milk", 0, 100, false, false, "", none, none⟩ : MatchResult).in_stock = false :=
  ⟨absent_in_stock_penalized.1 {} ⟨some "A", some "milk", none, none, none, none, none, none⟩
      100 (by decide),
   absent_in_stock_penalized.2 {} "milk"
      [⟨some "A", some "milk", none, none, none, none, none, none⟩] none
      ⟨"A", "milk", 0, 100, false, false, "", none, none⟩ (by decide) (by decide)⟩

/-- C8: the claim as stated is false for `get_top_matches`: it constructs its
MatchResults without passing `my_items_page`, so the page is always dropped
(`none`), even when the candidate carries `my_items_page = 2`. -/
theorem top_matches_drops_page_counterexample :
    get_top_matches {} "milk"
      [⟨some "A", some "milk", none, none, none, none, none, some 2⟩] 5 =
      Except.ok [⟨"A", "milk", 0, 100, false, false, "", none, none⟩] ∧
    (⟨"A", "milk", 0, 100, false, false, "", none, none⟩ :
      MatchResult).my_items_page ≠ some 2 :=
  ⟨by decide, by decide⟩

/-- C8 (amended): `find_best_match` preserves the selected candidate's
`my_items_page` through both paths (the returned result's page equals the
page of a candidate in the input pool bearing the result's name and id),
but `get_top_matches` always returns `my_items_page = none`, dropping the
page. -/
theorem source_page_preservation :
    (∀ (m : ItemMatcher) (q : String) (items : List Candidate)
      (my : Option (List Candidate)) (r : MatchResult),
      find_best_match m q items my = Except.ok (some r) →
      ∃ c ∈ items, c.name = some r.item_name ∧ c.id = some r.item_id ∧
        r.my_items_page = c.my_items_page) ∧
    (∀ (m : ItemMatcher) (q : String) (items : List Candidate) (limit : Nat)
      (res : List MatchResult) (r : MatchResult),
      get_top_matches m q items limit = Except.ok res → r ∈ res →
      r.my_items_page = none) := by
  constructor
  · intro m q items my r h
    obtain ⟨c, hc, htn, hid, _, _, _, _, hpg⟩ := find_ok_candidate h
    exact ⟨c, hc, (truthyName_some htn).1, hid, hpg⟩
  · intro m q items limit res r h hr
    rw [get_top_matches_ok_eq h] at hr
    have hr' := (mem_sortBy _ _ _).1 (List.mem_of_mem_take hr)
    obtain ⟨c, _, _, _, _, _, _, _, _, _, _, hpg⟩ := specQualify_mem hr'
    exact hpg

/-- Witness for C8 (amended): `find_best_match` returns page `3` from the
matching candidate, and `get_top_matches` returns page `none`. -/
theorem source_page_preservation_witness :
    (∃ c ∈ [(⟨some "A", some "milk", none, none, none, none, none, some 3⟩ : Candidate)],
      c.name = some (⟨"A", "milk", 0, 100, false, false, "", none, some 3⟩ :
        MatchResult).item_name ∧
      c.id = some (⟨"A", "milk", 0, 100, false, false, "", none, some 3⟩ :
        MatchResult).item_id ∧
      (⟨"A", "milk", 0, 100, false, false, "", none, some 3⟩ :
        MatchResult).my_items_page = c.my_items_page) ∧
    (⟨"A", "milk", 0, 100, false, false, "", none, none⟩ :
      MatchResult).my_items_page = none :=
  ⟨source_page_preservation.1 {} "milk"
      [⟨some "A", some "milk", none, none, none, none, none, some 3⟩] none
      ⟨"A", "milk", 0, 100, false, false, "", none, some 3⟩ (by decide),
   source_page_preservation.2 {} "milk"
      [⟨some "A", some "milk", none, none, none, none, none, some 2⟩] 5
      [⟨"A", "milk", 0, 100, false, false, "", none, none⟩]
      ⟨"A", "milk", 0, 100, false, false, "", none, none⟩ (by decide) (by decide)⟩

/-- C9: the claim as stated is false: a named candidate that lacks the `id`
key makes `find_best_match` raise a `KeyError` (modelled `Except.error
"id"`) when it is selected, rather than terminate normally. -/
theorem missing_id_raises_counterexample :
    find_best_match {} "milk" [⟨none, some "milk", none, none, none, none, none, none⟩]
      none = Except.error "id" := by
  decide

/-- C9 (amended): provided every named candidate carries an id, both
`find_best_match` and `get_top_matches` terminate normally without raising,
for every query, candidate list, history pool and limit; candidates with a
missing or empty name are silently skipped (a returned match never has an
empty name), and all other missing fields are tolerated; absence of a match
is the normal value `none`, not an exception. -/
theorem no_raise_when_ids_present (m : ItemMatcher) (q : String)
    (items : List Candidate) (my : Option (List Candidate)) (limit : Nat)
    (hids : ∀ c ∈ items, (truthyName c).isSome → c.id ≠ none) :
    (∃ o, find_best_match m q items my = Except.ok o) ∧
    (∃ l, get_top_matches m q items limit = Except.ok l) ∧
    (∀ r, find_best_match m q items my = Except.ok (some r) → r.item_name ≠ "") := by
  refine ⟨?_, ?_, ?_⟩
  · cases hr : find_best_match m q items my with
    | ok o => exact ⟨o, rfl⟩
    | error e =>
      exfalso
      rcases find_best_match_error_inv hr with ⟨mi, _, _, hfe⟩ | hce
      · obtain ⟨orig, c, hlk, hbad⟩ := find_in_my_items_error_inv hfe
        have hmem := buildNameMap_mem (dictLookup_mem orig _ c hlk)
        have hname := (truthyName_some hmem.2).1
        rcases hbad with hb | hb
        · exact hids c hmem.1 (by simp [hmem.2]) hb
        · rw [hname] at hb
          exact absurd hb (by simp)
      · obtain ⟨best, hhd, _, hid0⟩ := catalogStep_error_inv hce
        have hmem := scoreItems_mem ((mem_sortBy _ _ _).1 (mem_of_head_some hhd))
        exact hids best.item hmem.1 (by simp [hmem.2.1]) hid0
  · by_cases hit : items = []
    · refine ⟨[], ?_⟩
      unfold get_top_matches
      rw [if_pos hit]
    · cases ht : topResults m q items with
      | ok l =>
        refine ⟨(sortBy (fun x y => decide (x.score < y.score)) l).take limit, ?_⟩
        unfold get_top_matches
        rw [if_neg hit, ht]
      | error e =>
        exfalso
        obtain ⟨c, hc, hsome, hid0⟩ := topResults_error_inv ht
        exact hids c hc hsome hid0
  · intro r h
    obtain ⟨c, _, htn, _⟩ := find_ok_candidate h
    exact (truthyName_some htn).2

/-- Witness for C9 (amended) on a pool whose named candidates all carry
ids. -/
theorem no_raise_when_ids_present_witness :
    (∃ o, find_best_match {} "milk"
      [⟨some "A", some "milk", none, none, none, none, none, none⟩,
       ⟨none, none, none, none, none, none, none, none⟩] none = Except.ok o) ∧
    (∃ l, get_top_matches {} "milk"
      [⟨some "A", some "milk", none, none, none, none, none, none⟩,
       ⟨none, none, none, none, none, none, none, none⟩] 5 = Except.ok l) ∧
    (∀ r, find_best_match {} "milk"
      [⟨some "A", some "milk", none, none, none, none, none, none⟩,
       ⟨none, none, none, none, none, none, none, none⟩] none = Except.ok (some r) →
      r.item_name ≠ "") :=
  no_raise_when_ids_present {} "milk"
    [⟨some "A", some "milk", none, none, none, none, none, none⟩,
     ⟨none, none, none, none, none, none, none, none⟩] none 5 (by decide)

/-- C10: the claim as stated is false: with `prefer_in_stock = false` the
stock status still changes the adjusted score — an in-stock candidate keeps
its base score (`100`) while an out-of-stock one is penalized to `90` — and
ranking depends on it: the later in-stock `"B"` beats the earlier
out-of-stock `"A"` of equal base score. -/
theorem prefer_in_stock_false_counterexample :
    adjustScore ⟨70, true, false⟩
      ⟨some "A", some "milk", none, some true, none, none, none, none⟩ 100 = 100 ∧
    adjustScore ⟨70, true, false⟩
      ⟨some "A", some "milk", none, some false, none, none, none, none⟩ 100 = 90 ∧
    find_best_match ⟨70, true, false⟩ "milk"
      [⟨some "A", some "milk", none, some false, none, none, none, none⟩,
       ⟨some "B", some "milk", none, some true, none, none, none, none⟩] none =
      Except.ok (some ⟨"B", "milk", 0, 100, true, false, "", none, none⟩) :=
  ⟨by decide, by decide, by decide⟩

/-- C10 (amended): when `prefer_in_stock` is false the `+3` in-stock bonus is
never applied, but the `-10` out-of-stock penalty still is: a candidate with
truthy `in_stock` keeps its (possibly frequency-boosted) score unchanged,
while a candidate with falsy or absent `in_stock` loses `10`; so ranking is
NOT independent of `in_stock` in that configuration. -/
theorem prefer_in_stock_false_penalty (m : ItemMatcher) (c : Candidate) (score : ℚ)
    (hm : m.prefer_in_stock = false) :
    adjustScore m c score =
      (if m.prefer_frequent && truthyBool c.frequently_bought then score + 5
        else score) - (if truthyBool c.in_stock then 0 else 10) := by
  unfold adjustScore
  rw [hm]
  cases hstk : truthyBool c.in_stock with
  | false =>
    simp only [hstk, Bool.and_false, Bool.not_false, if_false, if_true, addQ_eq]
    push_cast
    ring
  | true =>
    simp only [hstk, Bool.false_and, Bool.not_true, if_false, addQ_eq]
    push_cast
    ring

/-- Witness for C10 (amended): with `prefer_in_stock = false` an out-of-stock
candidate's adjusted score is its base score minus `10`. -/
theorem prefer_in_stock_false_penalty_witness :
    adjustScore ⟨70, true, false⟩
      ⟨some "A", some "milk", none, some false, none, none, none, none⟩ 100 =
      (if (⟨70, true, false⟩ : ItemMatcher).prefer_frequent &&
          truthyBool (⟨some "A", some "milk", none, some false, none, none, none, none⟩ :
            Candidate).frequently_bought then (100 : ℚ) + 5 else 100) -
        (if truthyBool (⟨some "A", some "milk", none, some false, none, none, none, none⟩ :
            Candidate).in_stock then 0 else 10) :=
  prefer_in_stock_false_penalty ⟨70, true, false⟩
    ⟨some "A", some "milk", none, some false, none, none, none, none⟩ 100 (by decide)

end VSMatcher
